import Mathlib

/-!
Verification of the mesh topology engine of `stl2scad.py`.

The development shallowly embeds the topology core of the source program:

* `mesh2scadDedup` — vertex canonicalization / deduplication (source lines 69-83).
  The 9-significant-digit string encoding `point2str` is floating-point text
  formatting, so it is abstracted as a parameter `enc : V → E` into a linearly
  ordered encoding type; `np.unique` on the encoded strings is modelled by
  `sortedUnique` / `pyIndex` exactly following the documented numpy semantics
  (sorted distinct values, first-occurrence representative indices, inverse map).
* `splitDisjointObjects` / `collectSurfaceFaces` / `addFaceAndEdges` /
  `getAdjacentFace` — surface connectivity extraction (source lines 95-280),
  embedded with explicit fuel for the two while loops and `Except` for the
  `ValueError` that Python's `list.index` raises on a missing reverse edge.
* `surface2polyhedronObject` — polyhedron reassembly (source lines 289-316).
* `checkVertexesOfFaces` and `checkEdgeReuse` — the manifold integrity
  validator (source lines 614-690); printed findings are reified as report
  fields.

Machine integers do not occur: Python integers are unbounded, and the 64-bit
edge keys are plain naturals built with `<<<`/`|||` exactly as in the source.
-/

/-- Python `list.index` as an `Option`: index of the first occurrence of `a`,
`none` when `a` is absent (where Python raises `ValueError`). -/
def pyIndex {α : Type} [DecidableEq α] : List α → α → Option Nat
  | [], _ => none
  | x :: xs, a => if x = a then some 0 else (pyIndex xs a).map (· + 1)

/-- Python `max` over a list of naturals; agrees with Python on nonempty lists. -/
def pyMax : List Nat → Nat
  | [] => 0
  | x :: xs => max x (pyMax xs)

/-- Python `min` over a list of naturals; agrees with Python on nonempty lists. -/
def pyMin : List Nat → Nat
  | [] => 0
  | [x] => x
  | x :: y :: xs => min x (pyMin (y :: xs))

theorem getD_mem {α : Type} {l : List α} {p : Nat} (h : p < l.length) (d : α) :
    l.getD p d ∈ l := by
  rw [List.getD_eq_getElem l d h]
  exact List.getElem_mem h

theorem mem_iff_getD {α : Type} {l : List α} {a : α} (d : α) :
    a ∈ l ↔ ∃ p, p < l.length ∧ l.getD p d = a := by
  rw [List.mem_iff_getElem]
  constructor
  · rintro ⟨i, hi, rfl⟩
    exact ⟨i, hi, List.getD_eq_getElem l d hi⟩
  · rintro ⟨p, hp, h⟩
    exact ⟨p, hp, by rw [← List.getD_eq_getElem l d hp, h]⟩

theorem getD_append_lt {α : Type} (l l' : List α) (d : α) (p : Nat) (h : p < l.length) :
    (l ++ l').getD p d = l.getD p d :=
  List.getD_append l l' d p h

theorem getD_append_ge {α : Type} (l l' : List α) (d : α) (p : Nat) (h : l.length ≤ p) :
    (l ++ l').getD p d = l'.getD (p - l.length) d := by
  rcases Nat.lt_or_ge (p - l.length) l'.length with h2 | h2
  · rw [List.getD_eq_getElem _ d (by simp; omega), List.getD_eq_getElem _ d h2]
    exact List.getElem_append_right h
  · rw [List.getD_eq_default _ d (by simp; omega), List.getD_eq_default _ d h2]

theorem getD_map_lt {α β : Type} (f : α → β) (l : List α) (d : α) (e : β) (p : Nat)
    (h : p < l.length) : (l.map f).getD p e = f (l.getD p d) := by
  rw [List.getD_eq_getElem _ e (by simpa using h), List.getD_eq_getElem _ d h]
  simp

theorem pyIndex_some_spec {α : Type} [DecidableEq α] {l : List α} {a : α} {p : Nat}
    (h : pyIndex l a = some p) (d : α) :
    p < l.length ∧ l.getD p d = a ∧ ∀ q, q < p → l.getD q d ≠ a := by
  induction l generalizing p with
  | nil => simp [pyIndex] at h
  | cons x xs ih =>
    by_cases hx : x = a
    · rw [pyIndex, if_pos hx] at h
      cases h
      exact ⟨by simp, by simpa using hx, by omega⟩
    · rw [pyIndex, if_neg hx] at h
      rw [Option.map_eq_some'] at h
      obtain ⟨p0, hp0, rfl⟩ := h
      obtain ⟨h1, h2, h3⟩ := ih hp0
      refine ⟨by simpa using h1, by simpa using h2, ?_⟩
      intro q hq
      cases q with
      | zero => simpa using hx
      | succ q => simpa using h3 q (by omega)

theorem pyIndex_eq_some_of_mem {α : Type} [DecidableEq α] {l : List α} {a : α}
    (h : a ∈ l) : ∃ p, pyIndex l a = some p := by
  induction l with
  | nil => simp at h
  | cons x xs ih =>
    by_cases hx : x = a
    · exact ⟨0, by rw [pyIndex, if_pos hx]⟩
    · rcases List.mem_cons.mp h with h | h
      · exact absurd h.symm hx
      · obtain ⟨p, hp⟩ := ih h
        exact ⟨p + 1, by rw [pyIndex, if_neg hx, hp]; rfl⟩

theorem pyIndex_getD_self {α : Type} [DecidableEq α] {l : List α} (hl : l.Nodup)
    {k : Nat} (hk : k < l.length) (d : α) : pyIndex l (l.getD k d) = some k := by
  induction l generalizing k with
  | nil => simp at hk
  | cons x xs ih =>
    rw [List.nodup_cons] at hl
    cases k with
    | zero => rw [List.getD_cons_zero, pyIndex, if_pos rfl]
    | succ k =>
      rw [List.getD_cons_succ]
      have hmem : xs.getD k d ∈ xs := getD_mem (by simpa using hk) d
      have hx : x ≠ xs.getD k d := fun he => hl.1 (he ▸ hmem)
      rw [pyIndex, if_neg hx, ih hl.2 (by simpa using hk)]
      rfl

theorem lt_pyMax_iff (l : List Nat) (k : Nat) : k < pyMax l ↔ ∃ x ∈ l, k < x := by
  induction l with
  | nil => simp [pyMax]
  | cons x xs ih =>
    simp only [pyMax, lt_max_iff, ih, List.mem_cons]
    constructor
    · rintro (h | ⟨y, hy, hk⟩)
      · exact ⟨x, Or.inl rfl, h⟩
      · exact ⟨y, Or.inr hy, hk⟩
    · rintro ⟨y, hy, hk⟩
      rcases hy with h | hy
      · exact Or.inl (h ▸ hk)
      · exact Or.inr ⟨y, hy, hk⟩

theorem pyMin_lt_iff {l : List Nat} (h : l ≠ []) (k : Nat) :
    pyMin l < k ↔ ∃ x ∈ l, x < k := by
  induction l with
  | nil => exact absurd rfl h
  | cons x xs ih =>
    cases xs with
    | nil => simp [pyMin]
    | cons y ys =>
      simp only [pyMin, min_lt_iff, ih (by simp), List.mem_cons]
      constructor
      · rintro (h1 | ⟨z, hz, hk⟩)
        · exact ⟨x, Or.inl rfl, h1⟩
        · exact ⟨z, Or.inr hz, hk⟩
      · rintro ⟨z, hz, hk⟩
        rcases hz with h1 | hz
        · exact Or.inl (h1 ▸ hk)
        · exact Or.inr ⟨z, hz, hk⟩

/-- np.unique of a list of values: the distinct values, in ascending order. -/
def sortedUnique {E : Type} [LinearOrder E] (ss : List E) : List E :=
  List.insertionSort (fun a b => a ≤ b) ss.dedup

theorem mem_sortedUnique {E : Type} [LinearOrder E] {ss : List E} {x : E} :
    x ∈ sortedUnique ss ↔ x ∈ ss := by
  rw [sortedUnique, (List.perm_insertionSort _ _).mem_iff, List.mem_dedup]

theorem sortedUnique_nodup {E : Type} [LinearOrder E] (ss : List E) :
    (sortedUnique ss).Nodup :=
  (List.perm_insertionSort _ _).nodup_iff.mpr (List.nodup_dedup ss)

theorem sortedUnique_sorted_le {E : Type} [LinearOrder E] (ss : List E) :
    List.Sorted (fun a b => a ≤ b) (sortedUnique ss) :=
  List.sorted_insertionSort _ _

theorem sortedUnique_sorted_lt {E : Type} [LinearOrder E] (ss : List E) :
    List.Sorted (fun a b => a < b) (sortedUnique ss) := by
  have h := (sortedUnique_sorted_le ss).and (sortedUnique_nodup ss)
  exact h.imp (fun hab => lt_of_le_of_ne hab.1 hab.2)

theorem sortedUnique_eq_self {E : Type} [LinearOrder E] {ss : List E}
    (h : List.Sorted (fun a b => a < b) ss) : sortedUnique ss = ss := by
  have hnd : ss.Nodup := h.imp (fun hab => ne_of_lt hab)
  rw [sortedUnique, List.dedup_eq_self.mpr hnd]
  exact List.Sorted.insertionSort_eq (h.imp (fun hab => le_of_lt hab))

/-- np.reshape(..., (-1, 3)): group a flat list into consecutive triples
(source line 82). -/
def reshape3 {α : Type} : List α → List (List α)
  | a :: b :: c :: rest => [a, b, c] :: reshape3 rest
  | _ => []

theorem reshape3_getD {α : Type} (d : α) :
    ∀ (l : List α) (i : Nat), 3 * i + 2 < l.length →
      (reshape3 l).getD i [] =
        [l.getD (3 * i) d, l.getD (3 * i + 1) d, l.getD (3 * i + 2) d]
  | a :: b :: c :: rest, 0, _ => by simp [reshape3]
  | a :: b :: c :: rest, i + 1, h => by
    have hr : 3 * i + 2 < rest.length := by simp at h; omega
    have h0 : 3 * (i + 1) = 3 * i + 2 + 1 := by omega
    have h1 : 3 * (i + 1) + 1 = 3 * i + 2 + 2 := by omega
    have h2 : 3 * (i + 1) + 2 = 3 * i + 2 + 3 := by omega
    simp only [reshape3, List.getD_cons_succ, h0, h1, h2]
    exact reshape3_getD d rest i hr
  | [], i, h => by simp at h
  | [a], i, h => by simp at h
  | [a, b], i, h => by simp at h

/-- mesh2scadDedup (source lines 69-83): canonicalize every input vertex with
the encoding `enc` (modelling the 9-significant-digit `point2str`, source
lines 394-397), take the sorted unique encodings (np.unique), record for each
unique encoding the numeric vertex at its first-occurrence index
(return_index), and map every input vertex to the position of its encoding in
the unique list (return_inverse).  The flat inverse list is grouped into faces
of 3 by `reshape3`. -/
def mesh2scadDedup {V E : Type} [Inhabited V] [LinearOrder E] (enc : V → E)
    (vs : List V) : List V × List Nat :=
  let ptStrings := vs.map enc
  let unqStrings := sortedUnique ptStrings
  let points := unqStrings.map (fun e => vs.getD ((pyIndex ptStrings e).getD 0) default)
  let facePoints := ptStrings.map (fun e => (pyIndex unqStrings e).getD 0)
  (points, facePoints)

theorem mesh2scadDedup_points_length {V E : Type} [Inhabited V] [LinearOrder E]
    (enc : V → E) (vs : List V) :
    (mesh2scadDedup enc vs).1.length = (sortedUnique (vs.map enc)).length := by
  simp [mesh2scadDedup]

theorem mesh2scadDedup_points_map_enc {V E : Type} [Inhabited V] [LinearOrder E]
    (enc : V → E) (vs : List V) :
    (mesh2scadDedup enc vs).1.map enc = sortedUnique (vs.map enc) := by
  apply List.ext_getElem
  · simp [mesh2scadDedup]
  · intro k h1 h2
    simp only [mesh2scadDedup, List.getElem_map]
    set ss := vs.map enc with hss
    set unq := sortedUnique ss with hunq
    have he : unq[k] ∈ ss := mem_sortedUnique.mp (List.getElem_mem h2)
    obtain ⟨p, hp⟩ := pyIndex_eq_some_of_mem he
    obtain ⟨hplt, hpval, _⟩ := pyIndex_some_spec hp unq[k]
    have hpv : p < vs.length := by simpa [hss] using hplt
    rw [hp]
    simp only [Option.getD_some]
    calc enc (vs.getD p default)
        = ss.getD p (enc default) := (getD_map_lt enc vs default (enc default) p hpv).symm
      _ = ss.getD p unq[k] := by
          rw [List.getD_eq_getElem ss (enc default) hplt, List.getD_eq_getElem ss unq[k] hplt]
      _ = unq[k] := hpval

theorem mesh2scadDedup_faces_getD {V E : Type} [Inhabited V] [LinearOrder E]
    (enc : V → E) (vs : List V) {j : Nat} (hj : j < vs.length) :
    (mesh2scadDedup enc vs).2.getD j 0 =
      (pyIndex (sortedUnique (vs.map enc)) (enc (vs.getD j default))).getD 0 := by
  simp only [mesh2scadDedup]
  rw [getD_map_lt _ _ (enc default) 0 j (by simpa using hj)]
  rw [getD_map_lt enc vs default (enc default) j hj]

/-- Directed-edge key: source point index shifted into the high 32 bits, or-ed
with the destination index (source lines 102-105). -/
def pack (a b : Nat) : Nat := a <<< 32 ||| b

/-- High 32 bits of an edge key (source line 256: `edgHash >> 32`). -/
def hiHalf (h : Nat) : Nat := h >>> 32

/-- Low 32 bits of an edge key (source line 256: `edgHash & 0xffffffff`). -/
def loHalf (h : Nat) : Nat := h &&& 0xffffffff

/-- Reverse-direction edge key (source lines 256-257): swap the two packed
32-bit halves. -/
def revHash (h : Nat) : Nat := (loHalf h) <<< 32 ||| (hiHalf h)

theorem pack_eq_add (a b : Nat) (hb : b < 2 ^ 32) : pack a b = 2 ^ 32 * a + b := by
  rw [pack, Nat.shiftLeft_eq, Nat.mul_comm]
  exact (Nat.mul_add_lt_is_or hb a).symm

theorem hiHalf_pack (a b : Nat) (hb : b < 2 ^ 32) : hiHalf (pack a b) = a := by
  rw [pack_eq_add a b hb, hiHalf, Nat.shiftRight_eq_div_pow,
    Nat.mul_add_div (by norm_num), Nat.div_eq_of_lt hb, Nat.add_zero]

theorem loHalf_pack (a b : Nat) (hb : b < 2 ^ 32) : loHalf (pack a b) = b := by
  rw [pack_eq_add a b hb, loHalf]
  have hmask : (0xffffffff : Nat) = 2 ^ 32 - 1 := by norm_num
  rw [hmask, Nat.and_pow_two_sub_one_eq_mod, Nat.mul_add_mod, Nat.mod_eq_of_lt hb]

theorem revHash_pack (a b : Nat) (hb : b < 2 ^ 32) :
    revHash (pack a b) = pack b a := by
  show pack (loHalf (pack a b)) (hiHalf (pack a b)) = pack b a
  rw [loHalf_pack a b hb, hiHalf_pack a b hb]

theorem pack_inj {a b a2 b2 : Nat} (hb : b < 2 ^ 32) (hb2 : b2 < 2 ^ 32)
    (h : pack a b = pack a2 b2) : a = a2 ∧ b = b2 := by
  constructor
  · rw [← hiHalf_pack a b hb, ← hiHalf_pack a2 b2 hb2, h]
  · rw [← loHalf_pack a b hb, ← loHalf_pack a2 b2 hb2, h]

/-- A triangular face: an oriented triple of point indices. -/
abbrev Face : Type := Nat × Nat × Nat

/-- Default face used to make list indexing total. -/
def face0 : Face := (0, 0, 0)

/-- The three directed-edge keys of one face, in the order (v0,v1), (v1,v2),
(v2,v0) (source lines 102-105). -/
def faceEdgeHashes (f : Face) : List Nat :=
  [pack f.1 f.2.1, pack f.2.1 f.2.2, pack f.2.2 f.1]

/-- hashedFaceEdges (source lines 102-106): edge keys grouped by face. -/
def hashedFaceEdges (faces : List Face) : List (List Nat) :=
  faces.map faceEdgeHashes

/-- hashedEdges (source line 115): the flat, face-major edge key sequence. -/
def hashedEdges (faces : List Face) : List Nat :=
  (hashedFaceEdges faces).flatten

theorem length_faceEdgeHashes (f : Face) : (faceEdgeHashes f).length = 3 := rfl

theorem length_hashedFaceEdges (faces : List Face) :
    (hashedFaceEdges faces).length = faces.length := by
  simp [hashedFaceEdges]

theorem getD_hashedFaceEdges (faces : List Face) {i : Nat} (hi : i < faces.length) :
    (hashedFaceEdges faces).getD i [] = faceEdgeHashes (faces.getD i face0) :=
  getD_map_lt faceEdgeHashes faces face0 [] i hi

theorem length_hashedEdges (faces : List Face) :
    (hashedEdges faces).length = 3 * faces.length := by
  induction faces with
  | nil => rfl
  | cons f fs ih =>
    simp only [hashedEdges, hashedFaceEdges, List.map_cons, List.flatten_cons,
      List.length_append, List.length_cons] at ih ⊢
    rw [ih]
    simp [faceEdgeHashes]
    omega

theorem mem_hashedEdges {faces : List Face} {h : Nat} :
    h ∈ hashedEdges faces ↔
      ∃ i, i < faces.length ∧ h ∈ faceEdgeHashes (faces.getD i face0) := by
  rw [hashedEdges, List.mem_flatten]
  constructor
  · rintro ⟨l, hl, hh⟩
    rw [hashedFaceEdges, List.mem_map] at hl
    obtain ⟨f, hf, rfl⟩ := hl
    obtain ⟨i, hi, rfl⟩ := (mem_iff_getD face0).mp hf
    exact ⟨i, hi, hh⟩
  · rintro ⟨i, hi, hh⟩
    refine ⟨faceEdgeHashes (faces.getD i face0), ?_, hh⟩
    rw [hashedFaceEdges, List.mem_map]
    exact ⟨faces.getD i face0, getD_mem hi face0, rfl⟩

theorem getD_hashedEdges (faces : List Face) :
    ∀ p, p < 3 * faces.length →
      (hashedEdges faces).getD p 0 =
        (faceEdgeHashes (faces.getD (p / 3) face0)).getD (p % 3) 0 := by
  induction faces with
  | nil => intro p hp; simp at hp
  | cons f fs ih =>
    intro p hp
    have hsplit : hashedEdges (f :: fs) = faceEdgeHashes f ++ hashedEdges fs := by
      simp [hashedEdges, hashedFaceEdges]
    rcases Nat.lt_or_ge p 3 with h3 | h3
    · rw [hsplit, getD_append_lt _ _ _ _ (by rw [length_faceEdgeHashes]; exact h3)]
      have hd : p / 3 = 0 := by omega
      have hm : p % 3 = p := by omega
      rw [hd, hm, List.getD_cons_zero]
    · rw [hsplit, getD_append_ge _ _ _ _ (by rw [length_faceEdgeHashes]; exact h3),
        length_faceEdgeHashes]
      have hrec := ih (p - 3) (by simp only [List.length_cons] at hp; omega)
      rw [hrec]
      have hd : p / 3 = (p - 3) / 3 + 1 := by omega
      have hm : p % 3 = (p - 3) % 3 := by omega
      rw [hd, hm, List.getD_cons_succ]

theorem hashedEdges_owner_unique {faces : List Face}
    (hnd : (hashedEdges faces).Nodup) {h : Nat} {i j : Nat}
    (hi : i < faces.length) (hj : j < faces.length)
    (hhi : h ∈ faceEdgeHashes (faces.getD i face0))
    (hhj : h ∈ faceEdgeHashes (faces.getD j face0)) : i = j := by
  by_contra hne
  rw [hashedEdges, List.nodup_flatten] at hnd
  have hpw := List.pairwise_iff_getElem.mp hnd.2
  have hlen : (hashedFaceEdges faces).length = faces.length := length_hashedFaceEdges faces
  have hget : ∀ k, ∀ hk : k < (hashedFaceEdges faces).length,
      (hashedFaceEdges faces)[k] = faceEdgeHashes (faces.getD k face0) := by
    intro k hk
    have hk2 : k < faces.length := by omega
    rw [← getD_hashedFaceEdges faces hk2]
    exact (List.getD_eq_getElem _ [] hk).symm
  rcases Nat.lt_or_ge i j with hij | hij
  · have hd := hpw i j (by omega) (by omega) hij
    rw [hget i (by omega), hget j (by omega)] at hd
    exact hd hhi hhj
  · have hij2 : j < i := by omega
    have hd := hpw j i (by omega) (by omega) hij2
    rw [hget i (by omega), hget j (by omega)] at hd
    exact hd hhj hhi

/-- Working surface (source line 180): the face indices accepted so far (a
Python set, modelled as an insertion-ordered duplicate-free list) and the
append-only list of their directed-edge keys. -/
structure Surface where
  faceindex : List Nat
  edgehash : List Nat
deriving DecidableEq

/-- addFaceAndEdges (source lines 210-236): no-op for `None` or for a face
already on the surface; otherwise record the face index and append its three
edge keys. -/
def addFaceAndEdges (byFace : List (List Nat)) (sf : Surface) (faceNum : Option Nat) :
    Surface :=
  match faceNum with
  | none => sf
  | some n =>
    if n ∈ sf.faceindex then sf
    else { faceindex := sf.faceindex ++ [n], edgehash := sf.edgehash ++ byFace.getD n [] }

/-- getAdjacentFace (source lines 249-280): build the reverse key of the edge
at `idx`; if it is already on the surface answer `None`, otherwise derive the
owning face from the first position of the reverse key in the object-wide edge
sequence.  A missing reverse key is the uncaught ValueError of `list.index`,
modelled as `Except.error`. -/
def getAdjacentFace (byEdge : List Nat) (sf : Surface) (idx : Nat) :
    Except Unit (Option Nat) :=
  let edgHash := sf.edgehash.getD idx 0
  let reverseHash := revHash edgHash
  if reverseHash ∈ sf.edgehash then Except.ok none
  else
    match pyIndex byEdge reverseHash with
    | some p => Except.ok (some (p / 3))
    | none => Except.error ()

/-- The while loop of collectSurfaceFaces (source lines 186-191), with explicit
fuel: `none` means the fuel ran out before the cursor passed the end of the
edge list; `some (Except.error ())` propagates the ValueError of
getAdjacentFace. -/
def csfLoop (byFace : List (List Nat)) (byEdge : List Nat) :
    Nat → Nat → Surface → Option (Except Unit Surface)
  | 0, curEdge, sf =>
    if curEdge < sf.edgehash.length then none else some (Except.ok sf)
  | fuel + 1, curEdge, sf =>
    if curEdge < sf.edgehash.length then
      match getAdjacentFace byEdge sf curEdge with
      | Except.error e => some (Except.error e)
      | Except.ok nextFace =>
        csfLoop byFace byEdge fuel (curEdge + 1) (addFaceAndEdges byFace sf nextFace)
    else some (Except.ok sf)

/-- collectSurfaceFaces (source lines 170-197): seed the surface and run the
scan loop.  3·(number of faces) iterations always suffice, because each
iteration consumes one edge-list cell and the list never holds more than three
cells per face. -/
def collectSurfaceFaces (byFace : List (List Nat)) (byEdge : List Nat) (seedFace : Nat) :
    Option (Except Unit Surface) :=
  csfLoop byFace byEdge (3 * byFace.length) 0
    (addFaceAndEdges byFace { faceindex := [], edgehash := [] } (some seedFace))

/-- The while loop of splitDisjointObjects (source lines 125-143): repeatedly
grow a surface from the first still-unassigned face (modelling the arbitrary
`set.pop` of the source deterministically) and discard the surfaced faces. -/
def sdoLoop (byFace : List (List Nat)) (byEdge : List Nat) :
    Nat → List Nat → List Surface → Option (Except Unit (List Surface))
  | 0, remaining, acc => if remaining.isEmpty then some (Except.ok acc) else none
  | fuel + 1, remaining, acc =>
    match remaining with
    | [] => some (Except.ok acc)
    | seed :: _ =>
      match collectSurfaceFaces byFace byEdge seed with
      | none => none
      | some (Except.error e) => some (Except.error e)
      | some (Except.ok sf) =>
        sdoLoop byFace byEdge fuel
          (remaining.filter (fun f => decide (f ∉ sf.faceindex))) (acc ++ [sf])

/-- splitDisjointObjects restricted to one object (source lines 98-143): build
the two edge views and partition the object's faces into surfaces. -/
def splitDisjointObjects1 (faces : List Face) : Option (Except Unit (List Surface)) :=
  sdoLoop (hashedFaceEdges faces) (hashedEdges faces) faces.length
    (List.range faces.length) []

/-- The object loop of splitDisjointObjects (source lines 98-157): a ValueError
raised while processing any object propagates out of the whole call, so no
object of the model is returned.  Reassembly (surface2polyhedronObject) does
not affect this control flow and is modelled separately. -/
def splitDisjointObjectsAll : List (List Face) → Option (Except Unit (List (List Surface)))
  | [] => some (Except.ok [])
  | o :: rest =>
    match splitDisjointObjects1 o with
    | none => none
    | some (Except.error e) => some (Except.error e)
    | some (Except.ok ss) =>
      match splitDisjointObjectsAll rest with
      | none => none
      | some (Except.error e) => some (Except.error e)
      | some (Except.ok later) => some (Except.ok (ss :: later))

/-- Face-index lists of the surfaces of a successful extraction. -/
def surfaceFaceSets : Option (Except Unit (List Surface)) → Option (List (List Nat))
  | some (Except.ok ss) => some (ss.map Surface.faceindex)
  | _ => none

/-- The three corner point indices of a face, in face order. -/
def cornersOf (f : Face) : List Nat := [f.1, f.2.1, f.2.2]

/-- surface2polyhedronObject (source lines 289-316): unpack the surface's edge
keys into endpoint indices, take the sorted unique endpoint indices, gather
the referenced points, and remap every face corner to the position of its
point index in that unique list (`uniqueEndPoints.index(pt)`; the `.index`
call cannot miss when the surface's edges come from its faces, so the total
`getD 0` does not change behaviour there). -/
def surface2polyhedronObject {V : Type} [Inhabited V] (sf : Surface)
    (points : List V) (faces : List Face) : List V × List (List Nat) :=
  let surfaceEdges := sf.edgehash.map (fun h => [hiHalf h, loHalf h])
  let uniqueEndPoints := sortedUnique surfaceEdges.flatten
  let surfacePoints := uniqueEndPoints.map (fun idx => points.getD idx default)
  let surfaceFaces := sf.faceindex.map (fun faceIdx =>
    (cornersOf (faces.getD faceIdx face0)).map
      (fun pt => (pyIndex uniqueEndPoints pt).getD 0))
  (surfacePoints, surfaceFaces)

/-- Findings of checkEdgeReuse, with the two printed conditions reified. -/
structure EdgeReuseReport where
  duplicatesReported : Bool
  missingReverseCount : Option Nat
  allGood : Bool
deriving DecidableEq

/-- checkEdgeReuse (source lines 652-690): count the occurrences of every
directed edge and of its reverse; report duplicates when some count exceeds 1,
report the number of edges with no reverse when some reverse count is 0. -/
def checkEdgeReuse (edges : List (Nat × Nat)) : EdgeReuseReport :=
  let edgeCounts := edges.map (fun edg => edges.count edg)
  let dupFound := decide (1 < pyMax edgeCounts)
  let counterEdgeCounts := edges.map (fun edg => edges.count (edg.2, edg.1))
  let missingFound := decide (pyMin counterEdgeCounts < 1)
  { duplicatesReported := dupFound
    missingReverseCount := if missingFound then some (counterEdgeCounts.count 0) else none
    allGood := !dupFound && !missingFound }

/-- Findings of checkVertexesOfFaces, with the three printed reports reified. -/
structure VertexUseReport where
  minMaxReported : Bool
  closureFailReported : Bool
  orphanReported : Bool
  allGood : Bool
deriving DecidableEq

/-- checkVertexesOfFaces (source lines 614-642): count, for every point-table
index, its occurrences among the face corners; print min/max only under the
verbose flag, fail when the minimum is below 3, and inside that failure branch
report orphan vertexes when the minimum is below 1.  `numPoints` stands for
`len(obj['points'])`. -/
def checkVertexesOfFaces (verbose : Bool) (numPoints : Nat) (faces : List Face) :
    VertexUseReport :=
  let vertextIndexes := (faces.map cornersOf).flatten
  let vertexReferences := (List.range numPoints).map (fun idx => vertextIndexes.count idx)
  let failed := decide (pyMin vertexReferences < 3)
  { minMaxReported := verbose
    closureFailReported := failed
    orphanReported := failed && decide (pyMin vertexReferences < 1)
    allGood := !failed }

/-- Every point index of every face fits in 32 bits — the stated design
constraint of the directed-edge key packing. -/
def validFaces (faces : List Face) : Prop :=
  ∀ f ∈ faces, f.1 < 2 ^ 32 ∧ f.2.1 < 2 ^ 32 ∧ f.2.2 < 2 ^ 32

/-- Every directed edge of the object has a reverse-direction counterpart
somewhere in the object's flat edge sequence. -/
def closedEdges (faces : List Face) : Prop :=
  ∀ h ∈ hashedEdges faces, revHash h ∈ hashedEdges faces

/-- No directed edge key occurs twice in the object's flat edge sequence. -/
def noDupEdges (faces : List Face) : Prop :=
  (hashedEdges faces).Nodup

/-- Face adjacency: a directed edge of face `i` appears reversed on face `j`. -/
def adjFaces (faces : List Face) (i j : Nat) : Prop :=
  i < faces.length ∧ j < faces.length ∧
    ∃ h ∈ faceEdgeHashes (faces.getD i face0),
      revHash h ∈ faceEdgeHashes (faces.getD j face0)

/-- Connectivity of faces: reflexive-transitive closure of adjacency. -/
def reachFaces (faces : List Face) : Nat → Nat → Prop :=
  Relation.ReflTransGen (adjFaces faces)

instance (faces : List Face) : Decidable (closedEdges faces) :=
  inferInstanceAs (Decidable (∀ h ∈ hashedEdges faces, revHash h ∈ hashedEdges faces))

instance (faces : List Face) : Decidable (noDupEdges faces) :=
  inferInstanceAs (Decidable ((hashedEdges faces).Nodup))

instance (faces : List Face) : Decidable (validFaces faces) :=
  inferInstanceAs (Decidable (∀ f ∈ faces, f.1 < 2 ^ 32 ∧ f.2.1 < 2 ^ 32 ∧ f.2.2 < 2 ^ 32))

/-- Loop invariant of collectSurfaceFaces: the accepted face list is
duplicate-free, its faces are in range, and the edge list is exactly the
concatenation of the accepted faces' edge triples in acceptance order. -/
def SurfInv (faces : List Face) (sf : Surface) : Prop :=
  sf.faceindex.Nodup ∧ (∀ f ∈ sf.faceindex, f < faces.length) ∧
    sf.edgehash =
      (sf.faceindex.map (fun f => faceEdgeHashes (faces.getD f face0))).flatten

/-- Cursor invariant: every edge cell before the cursor already has its
reverse key somewhere on the surface's edge list. -/
def Processed (sf : Surface) (k : Nat) : Prop :=
  ∀ p, p < k → revHash (sf.edgehash.getD p 0) ∈ sf.edgehash

/-- Every accepted face is connected to the seed. -/
def SoundFrom (faces : List Face) (seed : Nat) (sf : Surface) : Prop :=
  ∀ f ∈ sf.faceindex, reachFaces faces seed f

theorem flatten_map_length_three {α : Type} (g : Nat → List α)
    (hg : ∀ f, (g f).length = 3) (l : List Nat) :
    ((l.map g).flatten).length = 3 * l.length := by
  induction l with
  | nil => rfl
  | cons x xs ih =>
    simp only [List.map_cons, List.flatten_cons, List.length_append, ih, hg,
      List.length_cons]
    omega

theorem surfInv_edgehash_length {faces : List Face} {sf : Surface}
    (h : SurfInv faces sf) : sf.edgehash.length = 3 * sf.faceindex.length := by
  rw [h.2.2]
  exact flatten_map_length_three _ (fun f => length_faceEdgeHashes _) _

theorem surfInv_mem_edgehash {faces : List Face} {sf : Surface}
    (hs : SurfInv faces sf) {h : Nat} :
    h ∈ sf.edgehash ↔ ∃ f ∈ sf.faceindex, h ∈ faceEdgeHashes (faces.getD f face0) := by
  rw [hs.2.2, List.mem_flatten]
  constructor
  · rintro ⟨l, hl, hh⟩
    rw [List.mem_map] at hl
    obtain ⟨f, hf, rfl⟩ := hl
    exact ⟨f, hf, hh⟩
  · rintro ⟨f, hf, hh⟩
    exact ⟨faceEdgeHashes (faces.getD f face0), List.mem_map.mpr ⟨f, hf, rfl⟩, hh⟩

theorem surfInv_edgehash_subset {faces : List Face} {sf : Surface}
    (hs : SurfInv faces sf) {h : Nat} (hh : h ∈ sf.edgehash) :
    h ∈ hashedEdges faces := by
  obtain ⟨f, hf, hmem⟩ := (surfInv_mem_edgehash hs).mp hh
  exact mem_hashedEdges.mpr ⟨f, hs.2.1 f hf, hmem⟩

theorem surfInv_card_le {faces : List Face} {sf : Surface}
    (hs : SurfInv faces sf) : sf.faceindex.length ≤ faces.length := by
  have hsub : sf.faceindex ⊆ List.range faces.length := fun f hf =>
    List.mem_range.mpr (hs.2.1 f hf)
  have := (hs.1.subperm hsub).length_le
  simpa using this

theorem addFaceAndEdges_none (byFace : List (List Nat)) (sf : Surface) :
    addFaceAndEdges byFace sf none = sf := rfl

theorem addFaceAndEdges_mem (byFace : List (List Nat)) (sf : Surface) {n : Nat}
    (h : n ∈ sf.faceindex) : addFaceAndEdges byFace sf (some n) = sf := by
  simp [addFaceAndEdges, h]

theorem addFaceAndEdges_new (byFace : List (List Nat)) (sf : Surface) {n : Nat}
    (h : n ∉ sf.faceindex) :
    addFaceAndEdges byFace sf (some n) =
      { faceindex := sf.faceindex ++ [n], edgehash := sf.edgehash ++ byFace.getD n [] } := by
  simp [addFaceAndEdges, h]

theorem surfInv_extend {faces : List Face} {sf : Surface} {owner : Nat}
    (hinv : SurfInv faces sf) (hon : owner < faces.length)
    (hnm : owner ∉ sf.faceindex) :
    SurfInv faces
      { faceindex := sf.faceindex ++ [owner],
        edgehash := sf.edgehash ++ (hashedFaceEdges faces).getD owner [] } := by
  refine ⟨?_, ?_, ?_⟩
  · rw [List.nodup_append]
    refine ⟨hinv.1, List.nodup_singleton owner, ?_⟩
    intro a ha hb
    rw [List.mem_singleton] at hb
    exact hnm (hb ▸ ha)
  · intro f hf
    rcases List.mem_append.mp hf with hf | hf
    · exact hinv.2.1 f hf
    · rw [List.mem_singleton] at hf
      exact hf ▸ hon
  · show sf.edgehash ++ (hashedFaceEdges faces).getD owner [] = _
    rw [getD_hashedFaceEdges faces hon, List.map_append, List.flatten_append,
      ← hinv.2.2]
    simp

theorem csfLoop_spec (faces : List Face) (Hc : closedEdges faces) (seed : Nat) :
    ∀ fuel curEdge sf, SurfInv faces sf → SoundFrom faces seed sf →
      Processed sf curEdge → curEdge ≤ sf.edgehash.length →
      3 * faces.length ≤ fuel + curEdge →
      ∃ sf2, csfLoop (hashedFaceEdges faces) (hashedEdges faces) fuel curEdge sf
          = some (Except.ok sf2) ∧
        SurfInv faces sf2 ∧ SoundFrom faces seed sf2 ∧
        (∀ f ∈ sf.faceindex, f ∈ sf2.faceindex) ∧
        Processed sf2 sf2.edgehash.length := by
  intro fuel
  induction fuel with
  | zero =>
    intro curEdge sf hinv hsound hproc hle hfuel
    have hlen : sf.edgehash.length = 3 * sf.faceindex.length :=
      surfInv_edgehash_length hinv
    have hcard : sf.faceindex.length ≤ faces.length := surfInv_card_le hinv
    have hnlt : ¬ curEdge < sf.edgehash.length := by omega
    refine ⟨sf, by simp [csfLoop, hnlt], hinv, hsound, fun f hf => hf, ?_⟩
    intro p hp
    exact hproc p (by omega)
  | succ fuel ih =>
    intro curEdge sf hinv hsound hproc hle hfuel
    by_cases hcur : curEdge < sf.edgehash.length
    · have hedge : sf.edgehash.getD curEdge 0 ∈ sf.edgehash := getD_mem hcur 0
      by_cases hrev : revHash (sf.edgehash.getD curEdge 0) ∈ sf.edgehash
      · -- reverse key already on the surface: skip
        have hadj : getAdjacentFace (hashedEdges faces) sf curEdge = Except.ok none := by
          simp only [getAdjacentFace]
          rw [if_pos hrev]
        have hstep :
            csfLoop (hashedFaceEdges faces) (hashedEdges faces) (fuel + 1) curEdge sf
              = csfLoop (hashedFaceEdges faces) (hashedEdges faces) fuel (curEdge + 1)
                  (addFaceAndEdges (hashedFaceEdges faces) sf none) := by
          simp only [csfLoop]
          rw [if_pos hcur, hadj]
        rw [hstep, addFaceAndEdges_none]
        refine ih (curEdge + 1) sf hinv hsound ?_ (by omega) (by omega)
        intro p hp
        rcases Nat.lt_or_ge p curEdge with h1 | h1
        · exact hproc p h1
        · have : p = curEdge := by omega
          exact this ▸ hrev
      · -- reverse key not yet on the surface: look it up object-wide
        have hbmem : sf.edgehash.getD curEdge 0 ∈ hashedEdges faces :=
          surfInv_edgehash_subset hinv hedge
        have hrmem : revHash (sf.edgehash.getD curEdge 0) ∈ hashedEdges faces :=
          Hc _ hbmem
        obtain ⟨p, hp⟩ := pyIndex_eq_some_of_mem hrmem
        obtain ⟨hplt, hpval, _⟩ := pyIndex_some_spec hp 0
        rw [length_hashedEdges] at hplt
        have hon : p / 3 < faces.length := by omega
        have hro : revHash (sf.edgehash.getD curEdge 0)
            ∈ faceEdgeHashes (faces.getD (p / 3) face0) := by
          rw [← hpval, getD_hashedEdges faces p hplt]
          exact getD_mem (by rw [length_faceEdgeHashes]; omega) 0
        have hnm : p / 3 ∉ sf.faceindex := by
          intro hmem
          exact hrev ((surfInv_mem_edgehash hinv).mpr ⟨p / 3, hmem, hro⟩)
        have hadj : getAdjacentFace (hashedEdges faces) sf curEdge
            = Except.ok (some (p / 3)) := by
          simp only [getAdjacentFace]
          rw [if_neg hrev, hp]
        have hstep :
            csfLoop (hashedFaceEdges faces) (hashedEdges faces) (fuel + 1) curEdge sf
              = csfLoop (hashedFaceEdges faces) (hashedEdges faces) fuel (curEdge + 1)
                  (addFaceAndEdges (hashedFaceEdges faces) sf (some (p / 3))) := by
          simp only [csfLoop]
          rw [if_pos hcur, hadj]
        rw [hstep, addFaceAndEdges_new _ _ hnm]
        set sf2 : Surface :=
          { faceindex := sf.faceindex ++ [p / 3],
            edgehash := sf.edgehash ++ (hashedFaceEdges faces).getD (p / 3) [] }
          with hsf2
        have hinv2 : SurfInv faces sf2 := surfInv_extend hinv hon hnm
        have hsound2 : SoundFrom faces seed sf2 := by
          intro f hf
          rcases List.mem_append.mp hf with hf | hf
          · exact hsound f hf
          · rw [List.mem_singleton] at hf
            subst hf
            obtain ⟨f0, hf0, hf0mem⟩ :=
              (surfInv_mem_edgehash hinv).mp hedge
            have hadjf : adjFaces faces f0 (p / 3) :=
              ⟨hinv.2.1 f0 hf0, hon, sf.edgehash.getD curEdge 0, hf0mem, hro⟩
            exact (hsound f0 hf0).tail hadjf
        have hget2 : ∀ q, q ≤ curEdge → sf2.edgehash.getD q 0 = sf.edgehash.getD q 0 := by
          intro q hq
          exact getD_append_lt _ _ 0 q (by omega)
        have hproc2 : Processed sf2 (curEdge + 1) := by
          intro q hq
          rcases Nat.lt_or_ge q curEdge with h1 | h1
          · rw [hget2 q (by omega)]
            exact List.mem_append_left _ (hproc q h1)
          · have hqe : q = curEdge := by omega
            subst hqe
            rw [hget2 q (by omega)]
            refine List.mem_append_right _ ?_
            rw [getD_hashedFaceEdges faces hon]
            exact hro
        have hlen2 : sf2.edgehash.length = sf.edgehash.length + 3 := by
          show (sf.edgehash ++ (hashedFaceEdges faces).getD (p / 3) []).length = _
          rw [List.length_append, getD_hashedFaceEdges faces hon, length_faceEdgeHashes]
        obtain ⟨sf3, hrun, hinv3, hsound3, hmono3, hproc3⟩ :=
          ih (curEdge + 1) sf2 hinv2 hsound2 hproc2 (by omega) (by omega)
        refine ⟨sf3, hrun, hinv3, hsound3, ?_, hproc3⟩
        intro f hf
        exact hmono3 f (List.mem_append_left _ hf)
    · have hnlt : ¬ curEdge < sf.edgehash.length := hcur
      refine ⟨sf, ?_, hinv, hsound, fun f hf => hf, ?_⟩
      · simp only [csfLoop]
        rw [if_neg hnlt]
      · intro q hq
        exact hproc q (by omega)

theorem collectSurfaceFaces_spec (faces : List Face) (Hc : closedEdges faces)
    {seed : Nat} (hs : seed < faces.length) :
    ∃ sf, collectSurfaceFaces (hashedFaceEdges faces) (hashedEdges faces) seed
        = some (Except.ok sf) ∧
      SurfInv faces sf ∧ SoundFrom faces seed sf ∧ seed ∈ sf.faceindex ∧
      Processed sf sf.edgehash.length := by
  have hseed0 : (seed : Nat) ∉ ([] : List Nat) := by simp
  have hsf0 : addFaceAndEdges (hashedFaceEdges faces)
      { faceindex := [], edgehash := [] } (some seed)
      = { faceindex := [seed], edgehash := (hashedFaceEdges faces).getD seed [] } := by
    rw [addFaceAndEdges_new _ _ hseed0]
    simp
  have hinv0 : SurfInv faces
      { faceindex := [seed], edgehash := (hashedFaceEdges faces).getD seed [] } := by
    refine ⟨List.nodup_singleton seed, ?_, ?_⟩
    · intro f hf
      rw [List.mem_singleton] at hf
      exact hf ▸ hs
    · show (hashedFaceEdges faces).getD seed [] = _
      rw [getD_hashedFaceEdges faces hs]
      simp
  have hsound0 : SoundFrom faces seed
      { faceindex := [seed], edgehash := (hashedFaceEdges faces).getD seed [] } := by
    intro f hf
    rw [List.mem_singleton] at hf
    exact hf ▸ Relation.ReflTransGen.refl
  obtain ⟨sf2, hrun, hinv2, hsound2, hmono2, hproc2⟩ :=
    csfLoop_spec faces Hc seed (3 * faces.length) 0
      { faceindex := [seed], edgehash := (hashedFaceEdges faces).getD seed [] }
      hinv0 hsound0 (by intro p hp; omega) (by omega) (by omega)
  refine ⟨sf2, ?_, hinv2, hsound2, ?_, hproc2⟩
  · rw [collectSurfaceFaces, hsf0, length_hashedFaceEdges]
    exact hrun
  · exact hmono2 seed (List.mem_singleton.mpr rfl)

theorem surface_closed_under_adj {faces : List Face} {sf : Surface}
    (Hn : noDupEdges faces) (hinv : SurfInv faces sf)
    (hfull : Processed sf sf.edgehash.length) {f g : Nat}
    (hf : f ∈ sf.faceindex) (hadj : adjFaces faces f g) : g ∈ sf.faceindex := by
  obtain ⟨hfn, hgn, h, hhf, hhg⟩ := hadj
  have hin : h ∈ sf.edgehash := (surfInv_mem_edgehash hinv).mpr ⟨f, hf, hhf⟩
  obtain ⟨p, hplt, hpval⟩ := (mem_iff_getD 0).mp hin
  have hrevin : revHash h ∈ sf.edgehash := by
    have := hfull p hplt
    rwa [hpval] at this
  obtain ⟨f1, hf1, hmem1⟩ := (surfInv_mem_edgehash hinv).mp hrevin
  have : f1 = g := hashedEdges_owner_unique Hn (hinv.2.1 f1 hf1) hgn hmem1 hhg
  exact this ▸ hf1

theorem mem_faceEdgeHashes_pack {f : Face} {h : Nat}
    (hb : f.1 < 2 ^ 32 ∧ f.2.1 < 2 ^ 32 ∧ f.2.2 < 2 ^ 32)
    (hm : h ∈ faceEdgeHashes f) :
    ∃ a b, a < 2 ^ 32 ∧ b < 2 ^ 32 ∧ h = pack a b := by
  have hm2 : h = pack f.1 f.2.1 ∨ h = pack f.2.1 f.2.2 ∨ h = pack f.2.2 f.1 := by
    simpa [faceEdgeHashes] using hm
  rcases hm2 with rfl | rfl | rfl
  · exact ⟨f.1, f.2.1, hb.1, hb.2.1, rfl⟩
  · exact ⟨f.2.1, f.2.2, hb.2.1, hb.2.2, rfl⟩
  · exact ⟨f.2.2, f.1, hb.2.2, hb.1, rfl⟩

theorem validFaces_getD {faces : List Face} (Hb : validFaces faces) {i : Nat}
    (hi : i < faces.length) :
    (faces.getD i face0).1 < 2 ^ 32 ∧ (faces.getD i face0).2.1 < 2 ^ 32 ∧
      (faces.getD i face0).2.2 < 2 ^ 32 :=
  Hb (faces.getD i face0) (getD_mem hi face0)

theorem adjFaces_symm {faces : List Face} (Hb : validFaces faces) :
    Symmetric (adjFaces faces) := by
  intro i j hadj
  obtain ⟨hi, hj, h, hhi, hhj⟩ := hadj
  obtain ⟨a, b, ha, hb2, rfl⟩ := mem_faceEdgeHashes_pack (validFaces_getD Hb hi) hhi
  refine ⟨hj, hi, revHash (pack a b), hhj, ?_⟩
  rw [revHash_pack a b hb2, revHash_pack b a ha]
  exact hhi

theorem reachFaces_lt {faces : List Face} {seed f : Nat}
    (hs : seed < faces.length) (hr : reachFaces faces seed f) : f < faces.length := by
  induction hr with
  | refl => exact hs
  | tail _ hadj ih => exact hadj.2.1

theorem collectSurfaceFaces_component (faces : List Face)
    (Hc : closedEdges faces) (Hn : noDupEdges faces) {seed : Nat}
    (hs : seed < faces.length) :
    ∃ sf, collectSurfaceFaces (hashedFaceEdges faces) (hashedEdges faces) seed
        = some (Except.ok sf) ∧ SurfInv faces sf ∧
      (∀ f, f ∈ sf.faceindex ↔ reachFaces faces seed f) := by
  obtain ⟨sf, hrun, hinv, hsound, hseed, hproc⟩ := collectSurfaceFaces_spec faces Hc hs
  refine ⟨sf, hrun, hinv, fun f => ⟨hsound f, ?_⟩⟩
  intro hr
  induction hr with
  | refl => exact hseed
  | tail hr1 hadj ih => exact surface_closed_under_adj Hn hinv hproc ih hadj

theorem reachFaces_symmetric {faces : List Face} (Hb : validFaces faces) :
    Symmetric (reachFaces faces) :=
  Relation.ReflTransGen.symmetric (adjFaces_symm Hb)

theorem sdoLoop_spec (faces : List Face) (Hb : validFaces faces)
    (Hc : closedEdges faces) (Hn : noDupEdges faces) :
    ∀ fuel remaining acc,
      remaining.length ≤ fuel →
      (∀ f ∈ remaining, f < faces.length) →
      (∀ f, f < faces.length → (∃ s ∈ acc, f ∈ s.faceindex) ∨ f ∈ remaining) →
      (∀ s ∈ acc, ∃ sd, sd < faces.length ∧
        ∀ f, f ∈ s.faceindex ↔ reachFaces faces sd f) →
      (∀ f ∈ remaining, ∀ s ∈ acc, f ∉ s.faceindex) →
      List.Pairwise (fun s t => ∀ f, f ∈ s.faceindex → f ∉ t.faceindex) acc →
      ∃ surfaces,
        sdoLoop (hashedFaceEdges faces) (hashedEdges faces) fuel remaining acc
          = some (Except.ok surfaces) ∧
        List.Pairwise (fun s t => ∀ f, f ∈ s.faceindex → f ∉ t.faceindex) surfaces ∧
        (∀ f, (∃ s ∈ surfaces, f ∈ s.faceindex) ↔ f < faces.length) := by
  intro fuel
  induction fuel with
  | zero =>
    intro remaining acc hlen hR2 hR3 hR4 hR5 hR6
    have hempty : remaining = [] := List.length_eq_zero.mp (by omega)
    subst hempty
    refine ⟨acc, by simp [sdoLoop], hR6, fun f => ⟨?_, ?_⟩⟩
    · rintro ⟨s, hs, hf⟩
      obtain ⟨sd, hsd, hchar⟩ := hR4 s hs
      exact reachFaces_lt hsd ((hchar f).mp hf)
    · intro hf
      rcases hR3 f hf with h | h
      · exact h
      · simp at h
  | succ fuel ih =>
    intro remaining acc hlen hR2 hR3 hR4 hR5 hR6
    match hrem : remaining with
    | [] =>
      refine ⟨acc, by simp [sdoLoop], hR6, fun f => ⟨?_, ?_⟩⟩
      · rintro ⟨s, hs, hf⟩
        obtain ⟨sd, hsd, hchar⟩ := hR4 s hs
        exact reachFaces_lt hsd ((hchar f).mp hf)
      · intro hf
        rcases hR3 f hf with h | h
        · exact h
        · simp at h
    | seed :: rest =>
      have hseedn : seed < faces.length := hR2 seed (by simp)
      obtain ⟨sf, hrun, hinv, hchar⟩ :=
        collectSurfaceFaces_component faces Hc Hn hseedn
      have hseedmem : seed ∈ sf.faceindex :=
        (hchar seed).mpr Relation.ReflTransGen.refl
      have hstep :
          sdoLoop (hashedFaceEdges faces) (hashedEdges faces) (fuel + 1)
              (seed :: rest) acc
            = sdoLoop (hashedFaceEdges faces) (hashedEdges faces) fuel
                ((seed :: rest).filter (fun f => decide (f ∉ sf.faceindex)))
                (acc ++ [sf]) := by
        simp only [sdoLoop]
        rw [hrun]
      set remaining2 := (seed :: rest).filter (fun f => decide (f ∉ sf.faceindex))
        with hrem2
      have hlen2 : remaining2.length < (seed :: rest).length := by
        refine List.length_filter_lt_length_iff_exists.mpr ⟨seed, by simp, ?_⟩
        simp [hseedmem]
      have hmem2 : ∀ f, f ∈ remaining2 ↔ f ∈ seed :: rest ∧ f ∉ sf.faceindex := by
        intro f
        rw [hrem2, List.mem_filter]
        simp
      have hR2b : ∀ f ∈ remaining2, f < faces.length := fun f hf =>
        hR2 f ((hmem2 f).mp hf).1
      have hR3b : ∀ f, f < faces.length →
          (∃ s ∈ acc ++ [sf], f ∈ s.faceindex) ∨ f ∈ remaining2 := by
        intro f hf
        by_cases hin : f ∈ sf.faceindex
        · exact Or.inl ⟨sf, by simp, hin⟩
        · rcases hR3 f hf with ⟨s, hs, hfs⟩ | h
          · exact Or.inl ⟨s, by simp [hs], hfs⟩
          · exact Or.inr ((hmem2 f).mpr ⟨h, hin⟩)
      have hR4b : ∀ s ∈ acc ++ [sf], ∃ sd, sd < faces.length ∧
          ∀ f, f ∈ s.faceindex ↔ reachFaces faces sd f := by
        intro s hs
        rcases List.mem_append.mp hs with hs | hs
        · exact hR4 s hs
        · rw [List.mem_singleton] at hs
          exact ⟨seed, hseedn, hs ▸ hchar⟩
      have hR5b : ∀ f ∈ remaining2, ∀ s ∈ acc ++ [sf], f ∉ s.faceindex := by
        intro f hf s hs
        obtain ⟨hf1, hf2⟩ := (hmem2 f).mp hf
        rcases List.mem_append.mp hs with hs | hs
        · exact hR5 f hf1 s hs
        · rw [List.mem_singleton] at hs
          exact hs ▸ hf2
      have hR6b : List.Pairwise (fun s t => ∀ f, f ∈ s.faceindex → f ∉ t.faceindex)
          (acc ++ [sf]) := by
        rw [List.pairwise_append]
        refine ⟨hR6, List.pairwise_singleton _ _, ?_⟩
        intro s hs t ht
        rw [List.mem_singleton] at ht
        subst ht
        intro f hfs hft
        obtain ⟨sd, hsd, hchar_s⟩ := hR4 s hs
        have h1 : reachFaces faces sd f := (hchar_s f).mp hfs
        have h2 : reachFaces faces seed f := (hchar f).mp hft
        have h3 : reachFaces faces sd seed :=
          h1.trans (reachFaces_symmetric Hb h2)
        exact hR5 seed (by simp) s hs ((hchar_s seed).mpr h3)
      rw [hstep]
      have hlen3 : remaining2.length ≤ fuel := by
        have h1 : (seed :: rest).length ≤ fuel + 1 := hrem ▸ hlen
        simp only [List.length_cons] at h1 hlen2
        omega
      exact ih remaining2 (acc ++ [sf]) hlen3 hR2b hR3b hR4b hR5b hR6b

theorem splitDisjointObjects1_partition (faces : List Face) (Hb : validFaces faces)
    (Hc : closedEdges faces) (Hn : noDupEdges faces) :
    ∃ surfaces, splitDisjointObjects1 faces = some (Except.ok surfaces) ∧
      List.Pairwise (fun s t => ∀ f, f ∈ s.faceindex → f ∉ t.faceindex) surfaces ∧
      (∀ f, (∃ s ∈ surfaces, f ∈ s.faceindex) ↔ f < faces.length) := by
  have := sdoLoop_spec faces Hb Hc Hn faces.length (List.range faces.length) []
    (by simp) (fun f hf => List.mem_range.mp hf)
    (fun f hf => Or.inr (List.mem_range.mpr hf))
    (by simp) (by simp) List.Pairwise.nil
  rwa [splitDisjointObjects1]

/-- Two coincident triangles with opposite orientations: the smallest closed
configuration in which every directed edge has exactly one reverse
counterpart. -/
def faces2 : List Face := [(0, 1, 2), (2, 1, 0)]

/-- Object in which every directed edge has a reverse counterpart but every
directed edge occurs twice (two copies of each triangle of `faces2`). -/
def faces4 : List Face := [(0, 1, 2), (0, 1, 2), (2, 1, 0), (2, 1, 0)]

/-- A single triangle: an open mesh, none of whose directed edges has a
reverse counterpart. -/
def openTri : List Face := [(0, 1, 2)]

/-- C1 (counterexample): on `faces4` every directed edge has a
reverse-direction counterpart in some face, yet splitDisjointObjects assigns
face 2 to two different extracted surfaces (and face 0 as well), so the
face-index sets of the surfaces are not pairwise disjoint. -/
theorem C1_counterexample :
    closedEdges faces4 ∧
    surfaceFaceSets (splitDisjointObjects1 faces4) = some [[0, 2], [1, 2], [3, 0]] ∧
    ¬ List.Pairwise (fun s t => ∀ f, f ∈ s → f ∉ t)
      ([[0, 2], [1, 2], [3, 0]] : List (List Nat)) :=
  ⟨by decide, by decide, by decide⟩

/-- C1 (amended): for every object with 32-bit point indices in which every
directed edge has a reverse-direction counterpart in some face and no directed
edge occurs more than once (a closed, possibly multi-component manifold
without duplicated directed edges), splitDisjointObjects succeeds and assigns
each face index to exactly one extracted surface: the face-index sets of the
surfaces are pairwise disjoint and their union is exactly the full index range
0, ..., face count - 1. -/
theorem C1_split_partitions_faces (faces : List Face) (Hb : validFaces faces)
    (Hc : closedEdges faces) (Hn : noDupEdges faces) :
    ∃ surfaces, splitDisjointObjects1 faces = some (Except.ok surfaces) ∧
      List.Pairwise (fun s t => ∀ f, f ∈ s.faceindex → f ∉ t.faceindex) surfaces ∧
      (∀ f, (∃ s ∈ surfaces, f ∈ s.faceindex) ↔ f < faces.length) :=
  splitDisjointObjects1_partition faces Hb Hc Hn

/-- Witness for C1 at the concrete closed object `faces2`. -/
theorem C1_split_partitions_faces_witness :
    (validFaces faces2 ∧ closedEdges faces2 ∧ noDupEdges faces2) ∧
    (∃ surfaces, splitDisjointObjects1 faces2 = some (Except.ok surfaces) ∧
      List.Pairwise (fun s t => ∀ f, f ∈ s.faceindex → f ∉ t.faceindex) surfaces ∧
      (∀ f, (∃ s ∈ surfaces, f ∈ s.faceindex) ↔ f < faces2.length)) :=
  ⟨⟨by decide, by decide, by decide⟩,
    C1_split_partitions_faces faces2 (by decide) (by decide) (by decide)⟩

/-- C2: on an object with an open boundary (a directed edge whose reverse key
is nowhere in the object's edge sequence) the `list.index` call of
getAdjacentFace raises an uncaught ValueError, which propagates out of
splitDisjointObjects: the whole call aborts and the sibling object — which
converts fine on its own, second conjunct — produces no output either.  This
contradicts the specified behaviour (signal a per-object structural error and
keep processing sibling objects), so the code, not the claim, is at fault. -/
theorem C2_open_mesh_aborts_all_objects :
    splitDisjointObjectsAll [openTri, faces2] = some (Except.error ()) ∧
    (∃ okResult, splitDisjointObjectsAll [faces2] = some (Except.ok okResult)) :=
  ⟨rfl, ⟨_, rfl⟩⟩

/-- C6: when every directed edge of the object has a reverse counterpart in
the object's edge sequence, collectSurfaceFaces terminates normally: the edge
list grows, by exactly the face's three keys, only when a face not already in
the face set is added (and is unchanged otherwise), the accumulated face set
stays duplicate-free and bounded by the object's face count, the cursor passes
the end of the edge list (the loop returns `Except.ok` instead of running out
of the 3·(face count) fuel), and the returned surface is the accumulated
face-index set containing the seed. -/
theorem C6_collect_terminates (faces : List Face) (seed : Nat)
    (Hc : closedEdges faces) (hs : seed < faces.length) :
    (∀ sf : Surface, ∀ f, f < faces.length → f ∉ sf.faceindex →
      (addFaceAndEdges (hashedFaceEdges faces) sf (some f)).edgehash
          = sf.edgehash ++ faceEdgeHashes (faces.getD f face0) ∧
      (addFaceAndEdges (hashedFaceEdges faces) sf (some f)).edgehash.length
          = sf.edgehash.length + 3) ∧
    (∀ sf : Surface, ∀ f, f ∈ sf.faceindex →
      addFaceAndEdges (hashedFaceEdges faces) sf (some f) = sf) ∧
    (∀ sf : Surface, addFaceAndEdges (hashedFaceEdges faces) sf none = sf) ∧
    (∃ sf, collectSurfaceFaces (hashedFaceEdges faces) (hashedEdges faces) seed
        = some (Except.ok sf) ∧
      seed ∈ sf.faceindex ∧ sf.faceindex.Nodup ∧
      sf.edgehash.length = 3 * sf.faceindex.length ∧
      sf.faceindex.length ≤ faces.length) := by
  refine ⟨?_, ?_, ?_, ?_⟩
  · intro sf f hf hnm
    rw [addFaceAndEdges_new _ _ hnm]
    constructor
    · show sf.edgehash ++ (hashedFaceEdges faces).getD f [] = _
      rw [getD_hashedFaceEdges faces hf]
    · show (sf.edgehash ++ (hashedFaceEdges faces).getD f []).length = _
      rw [List.length_append, getD_hashedFaceEdges faces hf, length_faceEdgeHashes]
  · intro sf f hf
    exact addFaceAndEdges_mem _ _ hf
  · intro sf
    exact addFaceAndEdges_none _ _
  · obtain ⟨sf, hrun, hinv, _, hseed, _⟩ := collectSurfaceFaces_spec faces Hc hs
    exact ⟨sf, hrun, hseed, hinv.1, surfInv_edgehash_length hinv,
      surfInv_card_le hinv⟩

/-- Witness for C6 at the concrete closed object `faces2` with seed 0. -/
theorem C6_collect_terminates_witness :
    (closedEdges faces2 ∧ 0 < faces2.length) ∧
    ((∀ sf : Surface, ∀ f, f < faces2.length → f ∉ sf.faceindex →
      (addFaceAndEdges (hashedFaceEdges faces2) sf (some f)).edgehash
          = sf.edgehash ++ faceEdgeHashes (faces2.getD f face0) ∧
      (addFaceAndEdges (hashedFaceEdges faces2) sf (some f)).edgehash.length
          = sf.edgehash.length + 3) ∧
    (∀ sf : Surface, ∀ f, f ∈ sf.faceindex →
      addFaceAndEdges (hashedFaceEdges faces2) sf (some f) = sf) ∧
    (∀ sf : Surface, addFaceAndEdges (hashedFaceEdges faces2) sf none = sf) ∧
    (∃ sf, collectSurfaceFaces (hashedFaceEdges faces2) (hashedEdges faces2) 0
        = some (Except.ok sf) ∧
      0 ∈ sf.faceindex ∧ sf.faceindex.Nodup ∧
      sf.edgehash.length = 3 * sf.faceindex.length ∧
      sf.faceindex.length ≤ faces2.length)) :=
  ⟨⟨by decide, by decide⟩, C6_collect_terminates faces2 0 (by decide) (by decide)⟩

/-- C7: the per-face view lists, in order, the packed keys of (v0,v1), (v1,v2),
(v2,v0); packing puts the source index in the high half and the destination in
the low half and is lossless for 32-bit indices (so a key and its swap differ
whenever the endpoints differ, and the reverse key is the swapped packing);
and the flat edge sequence is face-major: the key at flat position p is edge
p mod 3 of face p / 3, with 3·(face count) keys in total. -/
theorem C7_edge_key_packing (faces : List Face) (a b i p : Nat)
    (ha : a < 2 ^ 32) (hb : b < 2 ^ 32) (hi : i < faces.length)
    (hp : p < (hashedEdges faces).length) :
    (hashedFaceEdges faces).getD i []
        = [pack (faces.getD i face0).1 (faces.getD i face0).2.1,
           pack (faces.getD i face0).2.1 (faces.getD i face0).2.2,
           pack (faces.getD i face0).2.2 (faces.getD i face0).1] ∧
    hiHalf (pack a b) = a ∧ loHalf (pack a b) = b ∧
    revHash (pack a b) = pack b a ∧
    (a ≠ b → pack a b ≠ pack b a) ∧
    (hashedEdges faces).getD p 0
        = (faceEdgeHashes (faces.getD (p / 3) face0)).getD (p % 3) 0 ∧
    (hashedEdges faces).length = 3 * faces.length := by
  refine ⟨getD_hashedFaceEdges faces hi, hiHalf_pack a b hb, loHalf_pack a b hb,
    revHash_pack a b hb, ?_, ?_, length_hashedEdges faces⟩
  · intro hne heq
    exact hne (pack_inj hb ha heq).1
  · exact getD_hashedEdges faces p (by rwa [length_hashedEdges] at hp)

/-- Witness for C7 at `faces2`, indices 5 and 7, face 0, flat position 4. -/
theorem C7_edge_key_packing_witness :
    (5 < 2 ^ 32 ∧ 7 < 2 ^ 32 ∧ 0 < faces2.length ∧ 4 < (hashedEdges faces2).length) ∧
    ((hashedFaceEdges faces2).getD 0 []
        = [pack (faces2.getD 0 face0).1 (faces2.getD 0 face0).2.1,
           pack (faces2.getD 0 face0).2.1 (faces2.getD 0 face0).2.2,
           pack (faces2.getD 0 face0).2.2 (faces2.getD 0 face0).1] ∧
    hiHalf (pack 5 7) = 5 ∧ loHalf (pack 5 7) = 7 ∧
    revHash (pack 5 7) = pack 7 5 ∧
    (5 ≠ 7 → pack 5 7 ≠ pack 7 5) ∧
    (hashedEdges faces2).getD 4 0
        = (faceEdgeHashes (faces2.getD (4 / 3) face0)).getD (4 % 3) 0 ∧
    (hashedEdges faces2).length = 3 * faces2.length) :=
  ⟨⟨by decide, by decide, by decide, by decide⟩,
    C7_edge_key_packing faces2 5 7 0 4 (by decide) (by decide) (by decide) (by decide)⟩

/-- Position j of the flat vertex list is the first position carrying its own
canonical encoding. -/
def FirstEncOccurrence {V E : Type} [Inhabited V] (enc : V → E) (vs : List V)
    (j : Nat) : Prop :=
  j < vs.length ∧ ∀ i, i < j → enc (vs.getD i default) ≠ enc (vs.getD j default)

/-- C10: the point table produced by mesh2scadDedup is always sorted — its
rows appear in strictly ascending order of their canonical encodings, because
np.unique sorts the encoding strings (for string encodings this is the
lexicographic order). -/
theorem C10_dedup_points_sorted {V E : Type} [Inhabited V] [LinearOrder E]
    (enc : V → E) (vs : List V) :
    List.Sorted (fun a b => a < b) ((mesh2scadDedup enc vs).1.map enc) := by
  rw [mesh2scadDedup_points_map_enc]
  exact sortedUnique_sorted_lt _

/-- C4: canonicalization is idempotent — running mesh2scadDedup on the point
table of an already-deduplicated model returns the same point table in the
same order, and the produced index mapping is the identity 0, 1, 2, .... -/
theorem C4_dedup_idempotent {V E : Type} [Inhabited V] [LinearOrder E]
    (enc : V → E) (vs : List V) :
    mesh2scadDedup enc (mesh2scadDedup enc vs).1
      = ((mesh2scadDedup enc vs).1,
          List.range (mesh2scadDedup enc vs).1.length) := by
  set pts := (mesh2scadDedup enc vs).1 with hpts
  have hmap : pts.map enc = sortedUnique (vs.map enc) :=
    mesh2scadDedup_points_map_enc enc vs
  have hsorted : List.Sorted (fun a b => a < b) (pts.map enc) := by
    rw [hmap]
    exact sortedUnique_sorted_lt _
  have hnd : (pts.map enc).Nodup := hsorted.imp (fun hab => ne_of_lt hab)
  have hsu : sortedUnique (pts.map enc) = pts.map enc := sortedUnique_eq_self hsorted
  have hidx : ∀ k, k < pts.length →
      pyIndex (pts.map enc) ((pts.map enc).getD k (enc default)) = some k := by
    intro k hk
    exact pyIndex_getD_self hnd (by simpa using hk) (enc default)
  simp only [mesh2scadDedup, hsu]
  rw [Prod.mk.injEq]
  constructor
  · apply List.ext_getElem
    · simp
    · intro k h1 h2
      have hk : k < pts.length := by simpa using h2
      have hk2 : k < (pts.map enc).length := by simpa using hk
      rw [List.getElem_map]
      have hgd : (pts.map enc)[k] = (pts.map enc).getD k (enc default) :=
        (List.getD_eq_getElem _ (enc default) hk2).symm
      rw [hgd, hidx k hk]
      simp only [Option.getD_some]
      exact List.getD_eq_getElem pts default hk
  · apply List.ext_getElem
    · simp
    · intro j h1 h2
      have hj : j < pts.length := by simpa using h1
      have hj2 : j < (pts.map enc).length := by simpa using hj
      rw [List.getElem_map, List.getElem_range]
      have hgd : (pts.map enc)[j] = (pts.map enc).getD j (enc default) :=
        (List.getD_eq_getElem _ (enc default) hj2).symm
      rw [hgd, hidx j hj]
      rfl

/-- C5: each point-table row of mesh2scadDedup is the numeric vertex of the
first input occurrence whose encoding matches (not an average, not a later
occurrence), and each flat output index j points at the table row whose
encoding is the encoding of input vertex j — one output index per input
vertex, in input (face) order, with `reshape3` grouping them into faces of
three. -/
theorem C5_dedup_first_occurrence {V E : Type} [Inhabited V] [LinearOrder E]
    (enc : V → E) (vs : List V) (k j : Nat)
    (hk : k < (mesh2scadDedup enc vs).1.length) (hj : j < vs.length) :
    (∃ j0, FirstEncOccurrence enc vs j0 ∧
      (mesh2scadDedup enc vs).1.getD k default = vs.getD j0 default) ∧
    (mesh2scadDedup enc vs).2.length = vs.length ∧
    (mesh2scadDedup enc vs).2.getD j 0 < (mesh2scadDedup enc vs).1.length ∧
    enc ((mesh2scadDedup enc vs).1.getD ((mesh2scadDedup enc vs).2.getD j 0) default)
      = enc (vs.getD j default) := by
  set ss := vs.map enc with hss
  set unq := sortedUnique ss with hunq
  have hlen : (mesh2scadDedup enc vs).1.length = unq.length :=
    mesh2scadDedup_points_length enc vs
  have hmap : (mesh2scadDedup enc vs).1.map enc = unq :=
    mesh2scadDedup_points_map_enc enc vs
  have henc_pts : ∀ m, m < unq.length →
      enc ((mesh2scadDedup enc vs).1.getD m default) = unq.getD m (enc default) := by
    intro m hm
    have := getD_map_lt enc (mesh2scadDedup enc vs).1 default (enc default) m
      (by omega)
    rw [hmap] at this
    exact this.symm
  refine ⟨?_, ?_, ?_, ?_⟩
  · -- the k-th table row is a first-occurrence representative
    have hkq : k < unq.length := by omega
    have hqmem : unq.getD k (enc default) ∈ ss := by
      rw [mem_sortedUnique.symm, ← hunq]
      exact getD_mem hkq (enc default)
    obtain ⟨p, hp⟩ := pyIndex_eq_some_of_mem hqmem
    obtain ⟨hplt, hpval, hpfirst⟩ := pyIndex_some_spec hp (enc default)
    have hpv : p < vs.length := by simpa [hss] using hplt
    refine ⟨p, ⟨hpv, ?_⟩, ?_⟩
    · intro i hi henc
      have hie : i < vs.length := by omega
      have h1 : enc (vs.getD i default) = ss.getD i (enc default) :=
        (getD_map_lt enc vs default (enc default) i hie).symm
      have h2 : enc (vs.getD p default) = ss.getD p (enc default) :=
        (getD_map_lt enc vs default (enc default) p hpv).symm
      exact hpfirst i hi (by rw [← h1, henc, h2, hpval])
    · -- unfold the points component at position k
      have : (mesh2scadDedup enc vs).1.getD k default
          = vs.getD ((pyIndex ss (unq.getD k (enc default))).getD 0) default := by
        simp only [mesh2scadDedup, ← hss, ← hunq]
        rw [getD_map_lt (fun e => vs.getD ((pyIndex ss e).getD 0) default) unq
          (enc default) default k hkq]
      rw [this, hp]
      rfl
  · simp [mesh2scadDedup]
  · have hfp : (mesh2scadDedup enc vs).2.getD j 0
        = (pyIndex unq (enc (vs.getD j default))).getD 0 :=
      mesh2scadDedup_faces_getD enc vs hj
    have hjmem : enc (vs.getD j default) ∈ unq := by
      rw [hunq, mem_sortedUnique, hss]
      rw [show enc (vs.getD j default) = (vs.map enc).getD j (enc default) from
        (getD_map_lt enc vs default (enc default) j hj).symm]
      exact getD_mem (by simpa using hj) (enc default)
    obtain ⟨q, hq⟩ := pyIndex_eq_some_of_mem hjmem
    obtain ⟨hqlt, _, _⟩ := pyIndex_some_spec hq (enc default)
    rw [hfp, hq]
    simpa using by omega
  · have hfp : (mesh2scadDedup enc vs).2.getD j 0
        = (pyIndex unq (enc (vs.getD j default))).getD 0 :=
      mesh2scadDedup_faces_getD enc vs hj
    have hjmem : enc (vs.getD j default) ∈ unq := by
      rw [hunq, mem_sortedUnique, hss]
      rw [show enc (vs.getD j default) = (vs.map enc).getD j (enc default) from
        (getD_map_lt enc vs default (enc default) j hj).symm]
      exact getD_mem (by simpa using hj) (enc default)
    obtain ⟨q, hq⟩ := pyIndex_eq_some_of_mem hjmem
    obtain ⟨hqlt, hqval, _⟩ := pyIndex_some_spec hq (enc default)
    rw [hfp, hq]
    simp only [Option.getD_some]
    rw [henc_pts q hqlt]
    exact hqval

/-- Witness for C5: vertices 3, 13, 5 under the encoding v mod 10; the table
keeps 3 (the first occurrence of encoding 3), not 13. -/
theorem C5_dedup_first_occurrence_witness :
    (0 < (mesh2scadDedup (fun v => v % 10) [3, 13, 5]).1.length ∧
      1 < ([3, 13, 5] : List Nat).length) ∧
    ((∃ j0, FirstEncOccurrence (fun v => v % 10) [3, 13, 5] j0 ∧
      (mesh2scadDedup (fun v => v % 10) [3, 13, 5]).1.getD 0 default
        = ([3, 13, 5] : List Nat).getD j0 default) ∧
    (mesh2scadDedup (fun v => v % 10) [3, 13, 5]).2.length
        = ([3, 13, 5] : List Nat).length ∧
    (mesh2scadDedup (fun v => v % 10) [3, 13, 5]).2.getD 1 0
        < (mesh2scadDedup (fun v => v % 10) [3, 13, 5]).1.length ∧
    ((mesh2scadDedup (fun v => v % 10) [3, 13, 5]).1.getD
        ((mesh2scadDedup (fun v => v % 10) [3, 13, 5]).2.getD 1 0) default) % 10
      = (([3, 13, 5] : List Nat).getD 1 default) % 10) :=
  ⟨⟨by decide, by decide⟩,
    C5_dedup_first_occurrence (fun v => v % 10) [3, 13, 5] 0 1 (by decide) (by decide)⟩

theorem endpoints_mem_corners {f : Face}
    (hb : f.1 < 2 ^ 32 ∧ f.2.1 < 2 ^ 32 ∧ f.2.2 < 2 ^ 32) {h : Nat}
    (hm : h ∈ faceEdgeHashes f) :
    hiHalf h ∈ cornersOf f ∧ loHalf h ∈ cornersOf f := by
  have hm2 : h = pack f.1 f.2.1 ∨ h = pack f.2.1 f.2.2 ∨ h = pack f.2.2 f.1 := by
    simpa [faceEdgeHashes] using hm
  rcases hm2 with rfl | rfl | rfl
  · rw [hiHalf_pack _ _ hb.2.1, loHalf_pack _ _ hb.2.1]
    exact ⟨by simp [cornersOf], by simp [cornersOf]⟩
  · rw [hiHalf_pack _ _ hb.2.2, loHalf_pack _ _ hb.2.2]
    exact ⟨by simp [cornersOf], by simp [cornersOf]⟩
  · rw [hiHalf_pack _ _ hb.1, loHalf_pack _ _ hb.1]
    exact ⟨by simp [cornersOf], by simp [cornersOf]⟩

theorem corner_is_hiHalf {f : Face}
    (hb : f.1 < 2 ^ 32 ∧ f.2.1 < 2 ^ 32 ∧ f.2.2 < 2 ^ 32) {x : Nat}
    (hx : x ∈ cornersOf f) :
    ∃ h ∈ faceEdgeHashes f, hiHalf h = x := by
  have hx2 : x = f.1 ∨ x = f.2.1 ∨ x = f.2.2 := by simpa [cornersOf] using hx
  rcases hx2 with rfl | rfl | rfl
  · exact ⟨pack f.1 f.2.1, by simp [faceEdgeHashes], hiHalf_pack _ _ hb.2.1⟩
  · exact ⟨pack f.2.1 f.2.2, by simp [faceEdgeHashes], hiHalf_pack _ _ hb.2.2⟩
  · exact ⟨pack f.2.2 f.1, by simp [faceEdgeHashes], hiHalf_pack _ _ hb.1⟩

/-- C3: for every surface consisting of a face-index set together with the
edge keys contributed by exactly those faces, over an object with 32-bit point
indices, surface2polyhedronObject produces a point table that maps exactly the
referenced original point indices, in strictly ascending order (so without
duplicates), and a face table of the same face count as the subset in which
each corner is the rank of its original global index in that ascending index
list — in particular every new face-table entry is below the length of the new
point table. -/
theorem C3_reassembly_correct {V : Type} [Inhabited V] (points : List V)
    (faces : List Face) (sf : Surface)
    (Hb : validFaces faces)
    (Hfi : ∀ f ∈ sf.faceindex, f < faces.length)
    (He1 : ∀ h ∈ sf.edgehash, ∃ f ∈ sf.faceindex, h ∈ faceEdgeHashes (faces.getD f face0))
    (He2 : ∀ f ∈ sf.faceindex, ∀ h ∈ faceEdgeHashes (faces.getD f face0),
      h ∈ sf.edgehash) :
    ∃ uEP : List Nat,
      List.Sorted (fun a b => a < b) uEP ∧
      (∀ x, x ∈ uEP ↔ ∃ f ∈ sf.faceindex, x ∈ cornersOf (faces.getD f face0)) ∧
      (surface2polyhedronObject sf points faces).1
          = uEP.map (fun idx => points.getD idx default) ∧
      (surface2polyhedronObject sf points faces).2.length = sf.faceindex.length ∧
      uEP.length = (surface2polyhedronObject sf points faces).1.length ∧
      (∀ k, k < sf.faceindex.length →
        ∃ c1 c2 c3,
          (surface2polyhedronObject sf points faces).2.getD k [] = [c1, c2, c3] ∧
          c1 < uEP.length ∧ c2 < uEP.length ∧ c3 < uEP.length ∧
          uEP.getD c1 0 = (faces.getD (sf.faceindex.getD k 0) face0).1 ∧
          uEP.getD c2 0 = (faces.getD (sf.faceindex.getD k 0) face0).2.1 ∧
          uEP.getD c3 0 = (faces.getD (sf.faceindex.getD k 0) face0).2.2) := by
  set epl := (sf.edgehash.map (fun h => [hiHalf h, loHalf h])).flatten with hepl_def
  set uEP := sortedUnique epl with huep_def
  have hepl : ∀ x, x ∈ epl ↔ ∃ f ∈ sf.faceindex, x ∈ cornersOf (faces.getD f face0) := by
    intro x
    rw [hepl_def, List.mem_flatten]
    constructor
    · rintro ⟨l, hl, hx⟩
      obtain ⟨h, hh, rfl⟩ := List.mem_map.mp hl
      obtain ⟨f, hf, hm⟩ := He1 h hh
      have hbf := validFaces_getD Hb (Hfi f hf)
      have hcorners := endpoints_mem_corners hbf hm
      have hx2 : x = hiHalf h ∨ x = loHalf h := by simpa using hx
      rcases hx2 with rfl | rfl
      · exact ⟨f, hf, hcorners.1⟩
      · exact ⟨f, hf, hcorners.2⟩
    · rintro ⟨f, hf, hx⟩
      have hbf := validFaces_getD Hb (Hfi f hf)
      obtain ⟨h, hm, hhi⟩ := corner_is_hiHalf hbf hx
      refine ⟨[hiHalf h, loHalf h], List.mem_map.mpr ⟨h, He2 f hf h hm, rfl⟩, ?_⟩
      rw [hhi]
      simp
  have huep : ∀ x, x ∈ uEP ↔ ∃ f ∈ sf.faceindex, x ∈ cornersOf (faces.getD f face0) := by
    intro x
    rw [huep_def, mem_sortedUnique]
    exact hepl x
  have hfst : (surface2polyhedronObject sf points faces).1
      = uEP.map (fun idx => points.getD idx default) := rfl
  have hsnd : (surface2polyhedronObject sf points faces).2
      = sf.faceindex.map (fun faceIdx =>
          (cornersOf (faces.getD faceIdx face0)).map
            (fun pt => (pyIndex uEP pt).getD 0)) := rfl
  refine ⟨uEP, sortedUnique_sorted_lt epl, huep, hfst, ?_, ?_, ?_⟩
  · rw [hsnd]
    simp
  · rw [hfst]
    simp
  · intro k hk
    set fik := sf.faceindex.getD k 0 with hfik
    have hfikmem : fik ∈ sf.faceindex := getD_mem hk 0
    have hcm : ∀ x ∈ cornersOf (faces.getD fik face0),
        ∃ c, pyIndex uEP x = some c ∧ c < uEP.length ∧ uEP.getD c 0 = x := by
      intro x hx
      have hxm : x ∈ uEP := (huep x).mpr ⟨fik, hfikmem, hx⟩
      obtain ⟨c, hc⟩ := pyIndex_eq_some_of_mem hxm
      obtain ⟨hclt, hcval, _⟩ := pyIndex_some_spec hc 0
      exact ⟨c, hc, hclt, hcval⟩
    obtain ⟨c1, hc1, hc1lt, hc1val⟩ :=
      hcm (faces.getD fik face0).1 (by simp [cornersOf])
    obtain ⟨c2, hc2, hc2lt, hc2val⟩ :=
      hcm (faces.getD fik face0).2.1 (by simp [cornersOf])
    obtain ⟨c3, hc3, hc3lt, hc3val⟩ :=
      hcm (faces.getD fik face0).2.2 (by simp [cornersOf])
    refine ⟨c1, c2, c3, ?_, hc1lt, hc2lt, hc3lt, hc1val, hc2val, hc3val⟩
    rw [hsnd, getD_map_lt _ sf.faceindex 0 [] k hk, ← hfik]
    simp only [cornersOf, List.map_cons, List.map_nil]
    rw [hc1, hc2, hc3]
    rfl

/-- Witness for C3: the two faces of `faces2` as one surface over a
three-point table. -/
theorem C3_reassembly_correct_witness :
    (validFaces faces2 ∧
      (∀ f ∈ (Surface.mk [0, 1] (hashedEdges faces2)).faceindex, f < faces2.length) ∧
      (∀ h ∈ (Surface.mk [0, 1] (hashedEdges faces2)).edgehash,
        ∃ f ∈ (Surface.mk [0, 1] (hashedEdges faces2)).faceindex,
          h ∈ faceEdgeHashes (faces2.getD f face0)) ∧
      (∀ f ∈ (Surface.mk [0, 1] (hashedEdges faces2)).faceindex,
        ∀ h ∈ faceEdgeHashes (faces2.getD f face0),
          h ∈ (Surface.mk [0, 1] (hashedEdges faces2)).edgehash)) ∧
    (∃ uEP : List Nat,
      List.Sorted (fun a b => a < b) uEP ∧
      (∀ x, x ∈ uEP ↔ ∃ f ∈ (Surface.mk [0, 1] (hashedEdges faces2)).faceindex,
        x ∈ cornersOf (faces2.getD f face0)) ∧
      (surface2polyhedronObject (Surface.mk [0, 1] (hashedEdges faces2))
          ([10, 20, 30] : List Nat) faces2).1
          = uEP.map (fun idx => ([10, 20, 30] : List Nat).getD idx default) ∧
      (surface2polyhedronObject (Surface.mk [0, 1] (hashedEdges faces2))
          ([10, 20, 30] : List Nat) faces2).2.length
          = (Surface.mk [0, 1] (hashedEdges faces2)).faceindex.length ∧
      uEP.length = (surface2polyhedronObject (Surface.mk [0, 1] (hashedEdges faces2))
          ([10, 20, 30] : List Nat) faces2).1.length ∧
      (∀ k, k < (Surface.mk [0, 1] (hashedEdges faces2)).faceindex.length →
        ∃ c1 c2 c3,
          (surface2polyhedronObject (Surface.mk [0, 1] (hashedEdges faces2))
              ([10, 20, 30] : List Nat) faces2).2.getD k [] = [c1, c2, c3] ∧
          c1 < uEP.length ∧ c2 < uEP.length ∧ c3 < uEP.length ∧
          uEP.getD c1 0 = (faces2.getD
            ((Surface.mk [0, 1] (hashedEdges faces2)).faceindex.getD k 0) face0).1 ∧
          uEP.getD c2 0 = (faces2.getD
            ((Surface.mk [0, 1] (hashedEdges faces2)).faceindex.getD k 0) face0).2.1 ∧
          uEP.getD c3 0 = (faces2.getD
            ((Surface.mk [0, 1] (hashedEdges faces2)).faceindex.getD k 0) face0).2.2)) :=
  ⟨⟨by decide, by decide, by decide, by decide⟩,
    C3_reassembly_correct ([10, 20, 30] : List Nat) faces2
      (Surface.mk [0, 1] (hashedEdges faces2))
      (by decide) (by decide) (by decide) (by decide)⟩

theorem count_map_eq_length_filter {α β : Type} [DecidableEq α] [DecidableEq β]
    (f : α → β) (l : List α) (b : β) :
    (l.map f).count b = (l.filter (fun x => decide (f x = b))).length := by
  induction l with
  | nil => rfl
  | cons x xs ih =>
    by_cases hx : f x = b
    · simp [List.count_cons, List.filter_cons, hx, ih]
    · simp [List.count_cons, List.filter_cons, hx, ih]

/-- C8: on a non-empty flat directed-edge list, checkEdgeReuse (which is a
total function — it never raises) reports the duplicate-edge condition exactly
when some directed edge occurs more than once, reports the
missing-reverse-edge condition with the count of edges having zero
reverse-direction occurrences exactly when some edge has no reverse
counterpart, and returns True exactly when neither defect occurs. -/
theorem C8_checkEdgeReuse_reports (edges : List (Nat × Nat)) (hne : edges ≠ []) :
    ((checkEdgeReuse edges).duplicatesReported = true ↔
      ∃ e ∈ edges, 1 < edges.count e) ∧
    (∀ k, (checkEdgeReuse edges).missingReverseCount = some k ↔
      ((∃ e ∈ edges, edges.count (e.2, e.1) = 0) ∧
        k = (edges.filter (fun e => decide (edges.count (e.2, e.1) = 0))).length)) ∧
    ((checkEdgeReuse edges).allGood = true ↔
      (∀ e ∈ edges, edges.count e = 1) ∧ (∀ e ∈ edges, 0 < edges.count (e.2, e.1))) := by
  have hmapne : edges.map (fun edg => edges.count (edg.2, edg.1)) ≠ [] := by
    intro h
    exact hne (List.map_eq_nil_iff.mp h)
  have hdup_iff : 1 < pyMax (edges.map (fun edg => edges.count edg)) ↔
      ∃ e ∈ edges, 1 < edges.count e := by
    rw [lt_pyMax_iff]
    constructor
    · rintro ⟨c, hc, h1⟩
      obtain ⟨e, he, rfl⟩ := List.mem_map.mp hc
      exact ⟨e, he, h1⟩
    · rintro ⟨e, he, h1⟩
      exact ⟨edges.count e, List.mem_map.mpr ⟨e, he, rfl⟩, h1⟩
  have hmiss_iff : pyMin (edges.map (fun edg => edges.count (edg.2, edg.1))) < 1 ↔
      ∃ e ∈ edges, edges.count (e.2, e.1) = 0 := by
    rw [pyMin_lt_iff hmapne]
    constructor
    · rintro ⟨c, hc, h1⟩
      obtain ⟨e, he, rfl⟩ := List.mem_map.mp hc
      exact ⟨e, he, by omega⟩
    · rintro ⟨e, he, h1⟩
      exact ⟨edges.count (e.2, e.1), List.mem_map.mpr ⟨e, he, rfl⟩, by omega⟩
  have hdupb : (checkEdgeReuse edges).duplicatesReported
      = decide (1 < pyMax (edges.map (fun edg => edges.count edg))) := rfl
  have hmissb : (checkEdgeReuse edges).missingReverseCount
      = if decide (pyMin (edges.map (fun edg => edges.count (edg.2, edg.1))) < 1)
        then some ((edges.map (fun edg => edges.count (edg.2, edg.1))).count 0)
        else none := rfl
  have hgoodb : (checkEdgeReuse edges).allGood
      = (!decide (1 < pyMax (edges.map (fun edg => edges.count edg))) &&
         !decide (pyMin (edges.map (fun edg => edges.count (edg.2, edg.1))) < 1)) := rfl
  refine ⟨?_, ?_, ?_⟩
  · rw [hdupb, decide_eq_true_eq]
    exact hdup_iff
  · intro k
    rw [hmissb]
    by_cases hm : pyMin (edges.map (fun edg => edges.count (edg.2, edg.1))) < 1
    · rw [if_pos (decide_eq_true hm), count_map_eq_length_filter]
      constructor
      · intro hsome
        refine ⟨hmiss_iff.mp hm, ?_⟩
        exact (Option.some_inj.mp hsome).symm
      · rintro ⟨_, rfl⟩
        rfl
    · rw [if_neg (by simpa using hm)]
      constructor
      · intro hnone
        cases hnone
      · rintro ⟨hex, _⟩
        exact absurd (hmiss_iff.mpr hex) hm
  · rw [hgoodb]
    rw [Bool.and_eq_true, Bool.not_eq_eq_eq_not, Bool.not_eq_eq_eq_not]
    simp only [Bool.not_true, decide_eq_false_iff_not]
    rw [hdup_iff, hmiss_iff]
    constructor
    · rintro ⟨hnd, hnm⟩
      constructor
      · intro e he
        have h1 : 0 < edges.count e := List.count_pos_iff.mpr he
        have h2 : ¬ 1 < edges.count e := fun hgt => hnd ⟨e, he, hgt⟩
        omega
      · intro e he
        have h2 : ¬ edges.count (e.2, e.1) = 0 := fun h0 => hnm ⟨e, he, h0⟩
        omega
    · rintro ⟨h1, h2⟩
      constructor
      · rintro ⟨e, he, hgt⟩
        have := h1 e he
        omega
      · rintro ⟨e, he, h0⟩
        have := h2 e he
        omega

/-- Witness for C8 at the two-edge list (0,1), (1,0): no duplicates, all
reverses present, so the check passes. -/
theorem C8_checkEdgeReuse_reports_witness :
    (([((0 : Nat), (1 : Nat)), (1, 0)] : List (Nat × Nat)) ≠ []) ∧
    (((checkEdgeReuse [((0 : Nat), (1 : Nat)), (1, 0)]).duplicatesReported = true ↔
      ∃ e ∈ ([((0 : Nat), (1 : Nat)), (1, 0)] : List (Nat × Nat)),
        1 < ([((0 : Nat), (1 : Nat)), (1, 0)] : List (Nat × Nat)).count e) ∧
    (∀ k, (checkEdgeReuse [((0 : Nat), (1 : Nat)), (1, 0)]).missingReverseCount = some k ↔
      ((∃ e ∈ ([((0 : Nat), (1 : Nat)), (1, 0)] : List (Nat × Nat)),
          ([((0 : Nat), (1 : Nat)), (1, 0)] : List (Nat × Nat)).count (e.2, e.1) = 0) ∧
        k = (([((0 : Nat), (1 : Nat)), (1, 0)] : List (Nat × Nat)).filter
          (fun e => decide (([((0 : Nat), (1 : Nat)), (1, 0)] : List (Nat × Nat)).count
            (e.2, e.1) = 0))).length)) ∧
    ((checkEdgeReuse [((0 : Nat), (1 : Nat)), (1, 0)]).allGood = true ↔
      (∀ e ∈ ([((0 : Nat), (1 : Nat)), (1, 0)] : List (Nat × Nat)),
        ([((0 : Nat), (1 : Nat)), (1, 0)] : List (Nat × Nat)).count e = 1) ∧
      (∀ e ∈ ([((0 : Nat), (1 : Nat)), (1, 0)] : List (Nat × Nat)),
        0 < ([((0 : Nat), (1 : Nat)), (1, 0)] : List (Nat × Nat)).count (e.2, e.1)))) :=
  ⟨by decide, C8_checkEdgeReuse_reports [((0 : Nat), (1 : Nat)), (1, 0)] (by decide)⟩

/-- C9 (counterexample): on an object with three points and the two faces of
`faces2`, run without the verbose flag, checkVertexesOfFaces never prints the
minimum/maximum reference counts — the min/max diagnostic is emitted only
under verbose output, while the claim asserts it unconditionally. -/
theorem C9_counterexample :
    0 < 3 ∧ (checkVertexesOfFaces false 3 faces2).minMaxReported = false :=
  ⟨by decide, by decide⟩

/-- C9 (amended): for every object with at least one point,
checkVertexesOfFaces counts, for each point-table index, its occurrences
across all face corners, reports the minimum and maximum reference counts as a
diagnostic exactly when verbose output is enabled, returns False (and emits
the closure-failure report) exactly when some point is referenced fewer than 3
times, and additionally emits the distinct orphan-vertex report exactly when
some point has zero occurrences. -/
theorem C9_vertex_check_reports (verbose : Bool) (numPoints : Nat)
    (faces : List Face) (hpts : 0 < numPoints) :
    ((checkVertexesOfFaces verbose numPoints faces).minMaxReported = verbose) ∧
    ((checkVertexesOfFaces verbose numPoints faces).allGood = false ↔
      ∃ idx, idx < numPoints ∧ ((faces.map cornersOf).flatten).count idx < 3) ∧
    ((checkVertexesOfFaces verbose numPoints faces).closureFailReported = true ↔
      ∃ idx, idx < numPoints ∧ ((faces.map cornersOf).flatten).count idx < 3) ∧
    ((checkVertexesOfFaces verbose numPoints faces).orphanReported = true ↔
      ∃ idx, idx < numPoints ∧ ((faces.map cornersOf).flatten).count idx = 0) := by
  set refs := (List.range numPoints).map
    (fun idx => ((faces.map cornersOf).flatten).count idx) with hrefs
  have hne : refs ≠ [] := by
    rw [hrefs]
    intro h
    have := List.map_eq_nil_iff.mp h
    rw [List.range_eq_nil] at this
    omega
  have hmin_iff : ∀ m, pyMin refs < m ↔
      ∃ idx, idx < numPoints ∧ ((faces.map cornersOf).flatten).count idx < m := by
    intro m
    rw [pyMin_lt_iff hne]
    constructor
    · rintro ⟨c, hc, h1⟩
      obtain ⟨idx, hidx, rfl⟩ := List.mem_map.mp hc
      exact ⟨idx, List.mem_range.mp hidx, h1⟩
    · rintro ⟨idx, hidx, h1⟩
      exact ⟨_, List.mem_map.mpr ⟨idx, List.mem_range.mpr hidx, rfl⟩, h1⟩
  have hfailb : (checkVertexesOfFaces verbose numPoints faces).closureFailReported
      = decide (pyMin refs < 3) := rfl
  have hgoodb : (checkVertexesOfFaces verbose numPoints faces).allGood
      = !decide (pyMin refs < 3) := rfl
  have horphb : (checkVertexesOfFaces verbose numPoints faces).orphanReported
      = (decide (pyMin refs < 3) && decide (pyMin refs < 1)) := rfl
  refine ⟨rfl, ?_, ?_, ?_⟩
  · rw [hgoodb, Bool.not_eq_eq_eq_not, Bool.not_false, decide_eq_true_eq]
    exact hmin_iff 3
  · rw [hfailb, decide_eq_true_eq]
    exact hmin_iff 3
  · rw [horphb, Bool.and_eq_true, decide_eq_true_eq, decide_eq_true_eq]
    constructor
    · rintro ⟨_, h1⟩
      obtain ⟨idx, hidx, hc⟩ := (hmin_iff 1).mp h1
      exact ⟨idx, hidx, by omega⟩
    · rintro ⟨idx, hidx, hc⟩
      have h1 : pyMin refs < 1 := (hmin_iff 1).mpr ⟨idx, hidx, by omega⟩
      exact ⟨by omega, h1⟩

/-- Witness for C9 at verbose = true, three points, the faces of `faces2`
(every point is used exactly twice, so the closure check fails). -/
theorem C9_vertex_check_reports_witness :
    0 < 3 ∧
    (((checkVertexesOfFaces true 3 faces2).minMaxReported = true) ∧
    ((checkVertexesOfFaces true 3 faces2).allGood = false ↔
      ∃ idx, idx < 3 ∧ ((faces2.map cornersOf).flatten).count idx < 3) ∧
    ((checkVertexesOfFaces true 3 faces2).closureFailReported = true ↔
      ∃ idx, idx < 3 ∧ ((faces2.map cornersOf).flatten).count idx < 3) ∧
    ((checkVertexesOfFaces true 3 faces2).orphanReported = true ↔
      ∃ idx, idx < 3 ∧ ((faces2.map cornersOf).flatten).count idx = 0)) :=
  ⟨by decide, C9_vertex_check_reports true 3 faces2 (by decide)⟩
